import Mathlib

/-
Verification of the ngsutils repository against its specification.

The development shallowly embeds the two source files:
  - bam_utils/bam_stats.py   (RangeMatch, FeatureBin, RegionTagger, bam_stats)
  - ngsutils/bam/removeclipping.py  (bam_removeclipping, per-record part)

Modelling conventions, used throughout:
  - Python 2 integer division with the literal 100000 is floor division;
    it is modelled with Int.fdiv (for a positive divisor Int.fdiv agrees
    with Euclidean division).
  - Python dictionaries are modelled either as total functions with the
    empty list / zero as the value of absent keys (when the code treats a
    missing key exactly like an empty entry) or as association lists (when
    insertion order or key presence is observable).
  - Python strings used as genomic strands are kept as Lean String values.
  - Python truthiness of an optional string (None and the empty string are
    falsy) is modelled by the function pyTruthy.
-/

/-! Part 1: RangeMatch (bam_utils/bam_stats.py, lines 79 to 118). -/

/-- Elements of the per-bucket lists of RangeMatch.ranges: a tuple
(start, end, strand) exactly as built at bam_stats.py line 96. -/
abbrev RangeEntry : Type := Int × Int × String

/-- The RangeMatch class (bam_stats.py lines 79 to 118).  The nested
dictionary self.ranges (chrom, then bucket id) is modelled as a total
function returning the empty list for absent keys: get_tag treats a missing
chrom or a missing bucket exactly as it would treat an empty bucket list
(both return None), so the two representations are observationally equal. -/
structure RangeMatch where
  ranges : String → Int → List RangeEntry
  name : String

/-- A fresh RangeMatch as built by RangeMatch.__init__ (lines 85 to 87). -/
def RangeMatch.init (name : String) : RangeMatch :=
  { ranges := fun _ _ => [], name := name }

/-- The list of integers a, a+1, ..., b-1, modelling Python xrange(a, b). -/
def intRange (a b : Int) : List Int :=
  (List.range (b - a).toNat).map (fun (i : Nat) => a + (i : Int))

/-- RangeMatch.add_range (lines 89 to 102).  The interval (start, stop,
strand) is pushed on the front (list.insert(0, ...)) of the bucket list of
the bucket floor(start/100000), and, when the end bucket differs, of every
bucket floor(start/100000)+1 .. floor(stop/100000) as well (xrange at line
99).  Python 2 integer division is floor division, hence Int.fdiv. -/
def RangeMatch.add_range (rm : RangeMatch) (chrom strand : String)
    (start stop : Int) : RangeMatch :=
  let bin : Int := Int.fdiv start 100000
  let ebin : Int := Int.fdiv stop 100000
  let bins : List Int := bin :: (if ebin ≠ bin then intRange (bin + 1) (ebin + 1) else [])
  { rm with ranges := fun c b =>
      if c = chrom ∧ b ∈ bins then (start, stop, strand) :: rm.ranges c b
      else rm.ranges c b }

/-- Python truthiness of an optional string: None and the empty string are
falsy, every other string is truthy. -/
def pyTruthy : Option String → Bool
  | none => false
  | some s => !(s == "")

/-- The scanning loop of RangeMatch.get_tag (lines 111 to 118): walk the
bucket list; on a containing interval with matching strand (or with
ignore_strand set) return the category name at once; a containing interval
with the other strand only sets the rev_match flag; after the loop a set
rev_match flag yields name-rev, otherwise None. -/
def getTagScan (name strand : String) (pos : Int) (ignore_strand : Bool) :
    List RangeEntry → Bool → Option String
  | [], rev_match => if rev_match then some (name ++ "-rev") else none
  | (start, stop, r_strand) :: rest, rev_match =>
    if start ≤ pos ∧ pos ≤ stop then
      if ignore_strand || strand == r_strand then some name
      else getTagScan name strand pos ignore_strand rest true
    else getTagScan name strand pos ignore_strand rest rev_match

/-- RangeMatch.get_tag (lines 104 to 118).  In the source ignore_strand
defaults to False; callers in this development always pass it explicitly.
Only the single bucket floor(pos/100000) is inspected. -/
def RangeMatch.get_tag (rm : RangeMatch) (chrom strand : String) (pos : Int)
    (ignore_strand : Bool) : Option String :=
  getTagScan rm.name strand pos ignore_strand
    (rm.ranges chrom (Int.fdiv pos 100000)) false

/-- One recorded call to add_range: the arguments (chrom, strand, start,
end), with the reserved word end renamed to stop. -/
structure AddOp where
  chrom : String
  strand : String
  start : Int
  stop : Int

/-- A RangeMatch index of category name built by a sequence of add_range
calls, in order, starting from a fresh index. -/
def buildIndex (name : String) (ops : List AddOp) : RangeMatch :=
  ops.foldl (fun rm op => rm.add_range op.chrom op.strand op.start op.stop)
    (RangeMatch.init name)

/-! Part 2: RegionTagger (bam_utils/bam_stats.py, lines 189 to 256). -/

/-- The attributes of an alignment record that RegionTagger.add_read reads:
is_unmapped, is_reverse, cigar (a list of operation-code and length pairs)
and pos (the 0-based start position). -/
structure Read where
  is_unmapped : Bool
  is_reverse : Bool
  cigar : List (Nat × Nat)
  pos : Int

/-- The RegionTagger state: the list self.regions of RangeMatch indices
(the constructor appends exon, intron and promoter, in that order) and the
dictionary self.counts, modelled as a total function that is zero on absent
keys.  The constructor (lines 190 to 228) initialises the nine category
counters to 0 and fills the indices from the gene model; the theorems below
quantify over the contents of the indices instead of rebuilding them. -/
structure RegionTagger where
  regions : List RangeMatch
  counts : String → Int

/-- The region loop of add_read (lines 246 to 250): query each index in
order and stop at the first truthy tag.  In the source the loop variable
keeps the last (falsy) value when no index returns a truthy tag; since any
falsy value is immediately replaced by the intergenic fallback at lines 252
to 253, returning none in that case is observationally identical. -/
def regionScan : List RangeMatch → String → String → Int → Option String
  | [], _, _, _ => none
  | r :: rest, chrom, strand, pos =>
    let t := r.get_tag chrom strand pos false
    if pyTruthy t then t else regionScan rest chrom strand pos

/-- RegionTagger.add_read (lines 230 to 256).  Unmapped reads return at
once.  The tag is chosen by priority chrM, then a cigar N operation (code
3), then the first truthy region index answer, then intergenic, and the
chosen counter is incremented. -/
def RegionTagger.add_read (rt : RegionTagger) (read : Read) (chrom : String) :
    RegionTagger :=
  if read.is_unmapped then rt
  else
    let strand : String := if read.is_reverse then "-" else "+"
    let tag0 : Option String := if chrom == "chrM" then some "mitochondrial" else none
    let tag1 : Option String :=
      if pyTruthy tag0 then tag0
      else if read.cigar.any (fun oc => oc.1 == 3) then some "junction" else tag0
    let tag2 : Option String :=
      if pyTruthy tag1 then tag1 else regionScan rt.regions chrom strand read.pos
    let tag3 : Option String := if pyTruthy tag2 then tag2 else some "intergenic"
    match tag3 with
    | some t => { rt with counts := fun k => if k = t then rt.counts k + 1 else rt.counts k }
    | none => rt

/-- Folding add_read over a list of (read, chrom) pairs, as the bam_stats
main loop does at line 341 for each mapped read. -/
def processReads (rt : RegionTagger) (reads : List (Read × String)) : RegionTagger :=
  reads.foldl (fun acc rc => acc.add_read rc.1 rc.2) rt

/-- The nine category counters initialised by the RegionTagger constructor
(lines 220 to 228). -/
def nineCategories : List String :=
  ["exon", "intron", "promoter", "exon-rev", "intron-rev", "promoter-rev",
   "junction", "intergenic", "mitochondrial"]

/-- Sum of the nine fixed category counters of a RegionTagger. -/
def sumCounts (rt : RegionTagger) : Int :=
  (nineCategories.map rt.counts).sum

/-- First element of a list of options that is not none.  Used to state the
specification wording of the region lookup. -/
def firstSome : List (Option String) → Option String
  | [] => none
  | some a :: _ => some a
  | none :: rest => firstSome rest

/-- Modelled from the claim wording, for comparison with the code: the
category the specification says add_read picks for a mapped read.  Priority:
chrM gives mitochondrial; otherwise any cigar operation of code 3 gives
junction; otherwise the first non-None result of querying the region
indices, strand-aware, at the read start position; otherwise intergenic. -/
def specStrand (read : Read) : String :=
  if read.is_reverse then "-" else "+"

def specChosenCategory (regions : List RangeMatch) (read : Read) (chrom : String) :
    String :=
  if chrom = "chrM" then "mitochondrial"
  else if read.cigar.any (fun oc => oc.1 == 3) then "junction"
  else
    match firstSome (regions.map
        (fun r => r.get_tag chrom (specStrand read) read.pos false)) with
    | some t => t
    | none => "intergenic"

/-! Part 3: FeatureBin (bam_utils/bam_stats.py, lines 121 to 186). -/

/-- A value stored in a FeatureBin frequency map.  Tag values observed on a
record are integers or strings (the numeric case is what the mean needs,
the string case is what makes it fail). -/
inductive TagValue where
  | int (n : Int)
  | str (s : String)
deriving DecidableEq

/-- Python truthiness of a tag value: the integer 0 and the empty string
are falsy. -/
def TagValue.falsy : TagValue → Bool
  | .int n => n == 0
  | .str s => s == ""

/-- Python 2 comparison on tag values: two integers compare numerically,
two strings lexicographically, and every integer compares below every
string (Python 2 orders mixed types by type name, and int precedes str). -/
def TagValue.pyLt : TagValue → TagValue → Bool
  | .int a, .int b => a < b
  | .int _, .str _ => true
  | .str _, .int _ => false
  | .str a, .str b => a < b

/-- Python truthiness of the optional running min and max fields: None is
falsy, a present value is falsy when the value itself is. -/
def optFalsy : Option TagValue → Bool
  | none => true
  | some v => v.falsy

/-- The FeatureBin state (lines 121 to 134): self.bins is a dictionary from
observed value to occurrence count, modelled as an association list in
insertion order; the keys field mirrors self._keys and the optional min?
and max? fields mirror self._min and self._max (None before any add).  The
iteration cursor (self.__cur_pos) is not modelled: no claim touches it. -/
structure FeatureBin where
  tag : String
  asc : Bool
  bins : List (TagValue × Int)
  keys : List TagValue
  min? : Option TagValue
  max? : Option TagValue

/-- FeatureBin.__init__ (lines 123 to 134): the tag string is split on a
colon; the part after the colon, when present, selects ascending order
exactly when it equals the plus sign.  splitOn never returns an empty
list, so headD only formally needs a default. -/
def FeatureBin.init (tag : String) : FeatureBin :=
  let spl := tag.splitOn ":"
  { tag := spl.headD ""
    asc := match spl with
           | _ :: s :: _ => s == "+"
           | _ => true
    bins := [], keys := [], min? := none, max? := none }

/-- Whether a value is already a key of the frequency map. -/
def binsHasKey (bins : List (TagValue × Int)) (val : TagValue) : Bool :=
  bins.any (fun kv => kv.1 == val)

/-- Add one to the count of an existing key of the frequency map. -/
def binsIncr (bins : List (TagValue × Int)) (val : TagValue) :
    List (TagValue × Int) :=
  bins.map (fun kv => if kv.1 == val then (kv.1, kv.2 + 1) else kv)

/-- The value-level part of FeatureBin.add (lines 178 to 186), after the
observed value has been resolved from the record (lines 169 to 176 read
the sequence length, mapq, mismatch score or a named tag of the record):
create the key if absent, increment its count, and update the running
min and max.  The min and max updates guard with Python truthiness
(if not self._min or self._min > val), so a stored 0 counts as absent. -/
def FeatureBin.addVal (fb : FeatureBin) (val : TagValue) : FeatureBin :=
  let fb1 :=
    if binsHasKey fb.bins val then fb
    else { fb with bins := fb.bins ++ [(val, 0)], keys := fb.keys ++ [val] }
  let fb2 := { fb1 with bins := binsIncr fb1.bins val }
  let fb3 :=
    if optFalsy fb2.min? || (match fb2.min? with
                             | some m => TagValue.pyLt val m
                             | none => false) then
      { fb2 with min? := some val }
    else fb2
  if optFalsy fb3.max? || (match fb3.max? with
                           | some m => TagValue.pyLt m val
                           | none => false) then
    { fb3 with max? := some val }
  else fb3

/-- Adding a list of integer values to a FeatureBin, in order. -/
def addIntVals (fb : FeatureBin) (vals : List Int) : FeatureBin :=
  vals.foldl (fun acc n => acc.addVal (TagValue.int n)) fb

/-- The accumulation loop of FeatureBin.mean (lines 153 to 160): walk the
frequency map accumulating acc += value * count and count += count inside a
try/except.  Multiplying a string key by an integer count is string
repetition in Python and does not fail, but adding that string to the
integer accumulator raises TypeError, which the bare except turns into an
immediate return of 0; none models that early return. -/
def meanScan : List (TagValue × Int) → Int → Int → Option (Int × Int)
  | [], acc, count => some (acc, count)
  | (k, c) :: rest, acc, count =>
    match k with
    | .int n => meanScan rest (acc + n * c) (count + c)
    | .str _ => none

/-- FeatureBin.mean (lines 151 to 162).  The early return inside the except
gives 0; otherwise the final division float(acc)/count is performed outside
any try/except, so a zero total count raises ZeroDivisionError, modelled as
the error case.  Python divides floats; the division is modelled exactly
over the rationals. -/
def FeatureBin.mean (fb : FeatureBin) : Except Unit Rat :=
  match meanScan fb.bins 0 0 with
  | none => Except.ok 0
  | some (acc, count) =>
    if count = 0 then Except.error ()
    else Except.ok ((acc : Rat) / (count : Rat))

/-- The largest value a nonempty list of integers holds (the reference
value the max property is compared against). -/
def listMax (v : Int) (vs : List Int) : Int :=
  vs.foldl max v

/-! Part 4: the stats engine flag distribution (bam_stats, lines 284 to 374). -/

/-- The attributes of a record that the flag-distribution part of bam_stats
reads: the read identifier and the raw flag value.  The is_unmapped
attribute of a pysam record is flag bit 0x4. -/
structure StatRec where
  qname : String
  flag : Nat

/-- The pysam is_unmapped attribute: flag bit 0x4. -/
def StatRec.is_unmapped (r : StatRec) : Bool := r.flag &&& 4 != 0

/-- The accumulating state of the bam_stats main loop (lines 284 to 344)
restricted to what the flag distribution needs: the set of seen read names
(kept as a list in insertion order), the dictionary from observed raw flag
value to frequency (association list in insertion order), and the total,
mapped and unmapped counters.  The per-reference counters, region tagger
and tag bins are carried by separate definitions in this development. -/
structure EngineState where
  names : List String
  flag_counts : List (Nat × Nat)
  total : Nat
  mapped : Nat
  unmapped : Nat

/-- The empty engine state at the start of the pass. -/
def engineInit : EngineState :=
  { names := [], flag_counts := [], total := 0, mapped := 0, unmapped := 0 }

/-- Whether a flag value is a key of the flag_counts dictionary. -/
def flagHasKey (fc : List (Nat × Nat)) (k : Nat) : Bool :=
  fc.any (fun kv => kv.1 == k)

/-- Lines 321 to 324: if the flag value is new it is inserted with count 1,
otherwise its count is incremented. -/
def flagIncr (fc : List (Nat × Nat)) (k : Nat) : List (Nat × Nat) :=
  if flagHasKey fc k then
    fc.map (fun kv => if kv.1 == k then (kv.1, kv.2 + 1) else kv)
  else fc ++ [(k, 1)]

/-- One iteration of the bam_stats main loop (lines 316 to 344), restricted
to dedup, flag counting and the total, mapped and unmapped counters: a
record whose name was already seen is skipped entirely; otherwise its flag
is tallied, the name recorded and total incremented; unmapped records stop
there, mapped records also increment mapped. -/
def engineStep (st : EngineState) (r : StatRec) : EngineState :=
  if r.qname ∈ st.names then st
  else
    let st1 : EngineState :=
      { st with flag_counts := flagIncr st.flag_counts r.flag
                names := st.names ++ [r.qname]
                total := st.total + 1 }
    if r.is_unmapped then { st1 with unmapped := st1.unmapped + 1 }
    else { st1 with mapped := st1.mapped + 1 }

/-- Running the engine over a record stream from the empty state. -/
def runEngine (rs : List StatRec) : EngineState :=
  rs.foldl engineStep engineInit

/-- The keys of the flag_descriptions dictionary (lines 64 to 76), in
ascending order. -/
def flagDescriptionKeys : List Nat :=
  [1, 2, 4, 8, 16, 32, 64, 128, 256, 512, 1024]

/-- Lines 367 to 371: the reported count for one flag bit is the sum of the
frequencies of every observed raw flag value that has that bit set (bitwise
AND against the bit). -/
def flagBitCount (fc : List (Nat × Nat)) (flag : Nat) : Nat :=
  (fc.map (fun kv => if kv.1 &&& flag > 0 then kv.2 else 0)).sum

/-- Lines 359 to 374: the flag bits that get a row in the report.  A bit of
flag_descriptions enters tmp only when that exact value is a key of
flag_counts (line 362), tmp is then sorted ascending, and a row is printed
only when its OR-mask count is positive (line 373).  flagDescriptionKeys is
already listed ascending and filter preserves order, so the sort of tmp is
the identity here. -/
def reportRows (fc : List (Nat × Nat)) : List Nat :=
  (flagDescriptionKeys.filter (fun f => flagHasKey fc f)).filter
    (fun f => flagBitCount fc f > 0)

/-- The percentage printed for a row (line 374): float(count) * 100 / total,
modelled exactly over the rationals. -/
def pctOf (count total : Nat) : Rat :=
  (count : Rat) * 100 / (total : Rat)

/-- Rounding to one decimal place, as the %.1f format of line 374 displays
the percentage (the inputs used here are not ties, so rounding half up
agrees with the Python float formatting). -/
def oneDecimalRound (q : Rat) : Rat :=
  ((⌊10 * q + 1 / 2⌋ : Int) : Rat) / 10

/-! Part 5: the clipping normalizer
(ngsutils/bam/removeclipping.py, lines 25 to 73, per-record part). -/

/-- A tag value attached to a record by removeclipping: ZA and ZB are
integers, ZC is a float, modelled exactly as a rational. -/
inductive RcTagVal where
  | i (n : Int)
  | f (q : Rat)
deriving DecidableEq

/-- The attributes of a record that the per-record body of
bam_removeclipping reads and writes: is_unmapped, cigar, seq, qual (both
strings modelled as character lists) and tags. -/
structure RcRead where
  is_unmapped : Bool
  cigar : List (Nat × Nat)
  seq : List Char
  qual : List Char
  tags : List (String × RcTagVal)
deriving DecidableEq

/-- The loop state of the cigar scan (lines 26 to 44): the retained
operations, the recorded 5-prime and 3-prime clip lengths, the changed
flag and the inseq flag. -/
structure ClipState where
  newcigar : List (Nat × Nat)
  clip_5 : Nat
  clip_3 : Nat
  changed : Bool
  inseq : Bool
deriving DecidableEq

/-- One step of the cigar scan (lines 33 to 44): a hard clip (code 5) is
dropped and marks the record changed; a soft clip (code 4) is dropped,
marks the record changed and ASSIGNS its length to clip_5 while no
non-clip operation has been seen, to clip_3 afterwards; every other
operation sets inseq and is retained. -/
def clipStep (st : ClipState) (opl : Nat × Nat) : ClipState :=
  if opl.1 == 5 then { st with changed := true }
  else if opl.1 == 4 then
    if !st.inseq then { st with changed := true, clip_5 := opl.2 }
    else { st with changed := true, clip_3 := opl.2 }
  else { st with inseq := true, newcigar := st.newcigar ++ [(opl.1, opl.2)] }

/-- The initial scan state: newcigar = [], clip_5 = clip_3 = 0,
changed = False, inseq = False (lines 26 to 32). -/
def clipInit : ClipState :=
  { newcigar := [], clip_5 := 0, clip_3 := 0, changed := false, inseq := false }

/-- Python slice s[a:-b] for b > 0: the characters from index a up to
index len - b - 1, with the same clamping as Python. -/
def pySliceDropBoth (s : List Char) (a b : Nat) : List Char :=
  (s.take (s.length - b)).drop a

/-- The per-record body of bam_removeclipping (lines 25 to 73), returning
the written record and whether the altered counter was incremented.  An
unmapped record skips the scan; an unchanged record is written untouched.
A changed record gets the retained cigar, the sequence and quality sliced
as s[clip_5:-clip_3] when clip_3 is nonzero and s[clip_5:] when it is zero,
and the tags ZA (when clip_5 is nonzero), ZB (when clip_3 is nonzero) and
ZC = (clip_5 + clip_3) / original length appended.  Python computes ZC in
floating point and raises ZeroDivisionError on an empty sequence; the model
divides exactly over the rationals, and the theorems below only apply it to
records with a nonempty sequence. -/
def bam_removeclipping_read (read : RcRead) : RcRead × Bool :=
  if read.is_unmapped then (read, false)
  else
    let st := read.cigar.foldl clipStep clipInit
    if st.changed then
      let orig_length := read.seq.length
      let newseq :=
        if st.clip_3 ≠ 0 then pySliceDropBoth read.seq st.clip_5 st.clip_3
        else read.seq.drop st.clip_5
      let newqual :=
        if st.clip_3 ≠ 0 then pySliceDropBoth read.qual st.clip_5 st.clip_3
        else read.qual.drop st.clip_5
      let newtags :=
        read.tags
          ++ (if st.clip_5 ≠ 0 then [("ZA", RcTagVal.i st.clip_5)] else [])
          ++ (if st.clip_3 ≠ 0 then [("ZB", RcTagVal.i st.clip_3)] else [])
          ++ [("ZC", RcTagVal.f (((st.clip_5 + st.clip_3 : Nat) : Rat) / (orig_length : Rat)))]
      ({ read with cigar := st.newcigar, seq := newseq, qual := newqual,
                   tags := newtags }, true)
    else (read, false)

/-! Part 6: lemmas about RangeMatch. -/

theorem mem_intRange {a b x : Int} : x ∈ intRange a b ↔ a ≤ x ∧ x < b := by
  unfold intRange
  rw [List.mem_map]
  constructor
  · rintro ⟨i, hi, rfl⟩
    rw [List.mem_range] at hi
    omega
  · rintro ⟨h1, h2⟩
    refine ⟨(x - a).toNat, ?_, ?_⟩
    · rw [List.mem_range]
      omega
    · omega

theorem fdiv_bucket_mono {a b : Int} (h : a ≤ b) :
    Int.fdiv a 100000 ≤ Int.fdiv b 100000 := by
  rw [Int.fdiv_eq_ediv _ (by norm_num), Int.fdiv_eq_ediv _ (by norm_num)]
  exact Int.ediv_le_ediv (by norm_num) h

theorem mem_binsList {bin ebin b : Int} :
    (b ∈ bin :: (if ebin ≠ bin then intRange (bin + 1) (ebin + 1) else []))
    ↔ (b = bin ∨ (bin < b ∧ b ≤ ebin)) := by
  constructor
  · intro h
    rcases List.mem_cons.mp h with rfl | h
    · exact Or.inl rfl
    · split at h
      · rw [mem_intRange] at h
        omega
      · simp at h
  · intro h
    rcases h with rfl | ⟨h1, h2⟩
    · exact List.mem_cons_self _ _
    · refine List.mem_cons_of_mem _ ?_
      rw [if_pos (by omega), mem_intRange]
      omega

theorem add_range_ranges (rm : RangeMatch) (chrom strand : String) (s e : Int)
    (c : String) (b : Int) :
    (rm.add_range chrom strand s e).ranges c b
      = if c = chrom ∧ (b = Int.fdiv s 100000
            ∨ (Int.fdiv s 100000 < b ∧ b ≤ Int.fdiv e 100000))
        then (s, e, strand) :: rm.ranges c b else rm.ranges c b := by
  have hdef : (rm.add_range chrom strand s e).ranges c b
      = if c = chrom ∧ b ∈ Int.fdiv s 100000 ::
          (if Int.fdiv e 100000 ≠ Int.fdiv s 100000 then
            intRange (Int.fdiv s 100000 + 1) (Int.fdiv e 100000 + 1) else [])
        then (s, e, strand) :: rm.ranges c b else rm.ranges c b := rfl
  rw [hdef]
  by_cases h : c = chrom ∧ (b = Int.fdiv s 100000
      ∨ (Int.fdiv s 100000 < b ∧ b ≤ Int.fdiv e 100000))
  · rw [if_pos ⟨h.1, mem_binsList.mpr h.2⟩, if_pos h]
  · rw [if_neg (fun hc => h ⟨hc.1, mem_binsList.mp hc.2⟩), if_neg h]

theorem add_range_name (rm : RangeMatch) (chrom strand : String) (s e : Int) :
    (rm.add_range chrom strand s e).name = rm.name := rfl

theorem add_range_mem (rm : RangeMatch) (chrom strand : String) (s e b : Int)
    (h1 : Int.fdiv s 100000 ≤ b) (h2 : b ≤ Int.fdiv e 100000) :
    (s, e, strand) ∈ (rm.add_range chrom strand s e).ranges chrom b := by
  rw [add_range_ranges, if_pos ⟨rfl, by omega⟩]
  exact List.mem_cons_self _ _

theorem add_range_preserves (rm : RangeMatch) (chrom strand : String) (s e : Int)
    (c : String) (b : Int) (x : RangeEntry) (hx : x ∈ rm.ranges c b) :
    x ∈ (rm.add_range chrom strand s e).ranges c b := by
  rw [add_range_ranges]
  split
  · exact List.mem_cons_of_mem _ hx
  · exact hx

theorem foldl_add_ranges_preserves (ops : List AddOp) (rm : RangeMatch)
    (c : String) (b : Int) (x : RangeEntry) (hx : x ∈ rm.ranges c b) :
    x ∈ (ops.foldl (fun r op => r.add_range op.chrom op.strand op.start op.stop) rm).ranges c b := by
  induction ops generalizing rm with
  | nil => simpa using hx
  | cons op rest ih =>
    simp only [List.foldl_cons]
    exact ih _ (add_range_preserves rm op.chrom op.strand op.start op.stop c b x hx)

theorem foldl_add_ranges_sound (ops : List AddOp) (rm : RangeMatch)
    (c : String) (b : Int) (x : RangeEntry)
    (hx : x ∈ (ops.foldl (fun r op => r.add_range op.chrom op.strand op.start op.stop) rm).ranges c b) :
    x ∈ rm.ranges c b ∨ ∃ op ∈ ops, op.chrom = c ∧ x = (op.start, op.stop, op.strand) := by
  induction ops generalizing rm with
  | nil => exact Or.inl (by simpa using hx)
  | cons op rest ih =>
    simp only [List.foldl_cons] at hx
    rcases ih _ hx with h | h
    · rw [add_range_ranges] at h
      split at h
      · rename_i hcond
        rcases List.mem_cons.mp h with rfl | h
        · exact Or.inr ⟨op, List.mem_cons_self _ _, hcond.1.symm, rfl⟩
        · exact Or.inl h
      · exact Or.inl h
    · obtain ⟨op2, hop2, ha, hb⟩ := h
      exact Or.inr ⟨op2, List.mem_cons_of_mem _ hop2, ha, hb⟩

theorem foldl_add_ranges_complete (ops : List AddOp) (rm : RangeMatch)
    (op : AddOp) (b : Int)
    (h1 : Int.fdiv op.start 100000 ≤ b) (h2 : b ≤ Int.fdiv op.stop 100000)
    (hop : op ∈ ops) :
    (op.start, op.stop, op.strand) ∈
      (ops.foldl (fun r o => r.add_range o.chrom o.strand o.start o.stop) rm).ranges op.chrom b := by
  induction ops generalizing rm with
  | nil => simp at hop
  | cons hd rest ih =>
    simp only [List.foldl_cons]
    rcases List.mem_cons.mp hop with rfl | hmem
    · exact foldl_add_ranges_preserves rest _ _ _ _
        (add_range_mem rm op.chrom op.strand op.start op.stop b h1 h2)
    · exact ih _ hmem

theorem foldl_add_ranges_name (ops : List AddOp) (rm : RangeMatch) :
    (ops.foldl (fun r o => r.add_range o.chrom o.strand o.start o.stop) rm).name
      = rm.name := by
  induction ops generalizing rm with
  | nil => rfl
  | cons op rest ih =>
    simp only [List.foldl_cons]
    rw [ih]
    rfl

theorem buildIndex_name (name : String) (ops : List AddOp) :
    (buildIndex name ops).name = name :=
  foldl_add_ranges_name ops (RangeMatch.init name)

theorem getTagScan_matching (name strand : String) (pos : Int) (ig : Bool)
    (l : List RangeEntry) (rev : Bool)
    (h : ∃ x ∈ l, x.1 ≤ pos ∧ pos ≤ x.2.1 ∧ (ig = true ∨ strand = x.2.2)) :
    getTagScan name strand pos ig l rev = some name := by
  induction l generalizing rev with
  | nil => simp at h
  | cons hd tl ih =>
    obtain ⟨x, hx, hc1, hc2, hc3⟩ := h
    obtain ⟨s, e, rs⟩ := hd
    unfold getTagScan
    rcases List.mem_cons.mp hx with rfl | hmem
    · rw [if_pos ⟨hc1, hc2⟩, if_pos]
      rcases hc3 with h | h
      · simp [h]
      · simp [h]
    · by_cases hcont : s ≤ pos ∧ pos ≤ e
      · rw [if_pos hcont]
        by_cases hmatch : (ig || strand == rs) = true
        · rw [if_pos hmatch]
        · rw [if_neg hmatch]
          exact ih true ⟨x, hmem, hc1, hc2, hc3⟩
      · rw [if_neg hcont]
        exact ih rev ⟨x, hmem, hc1, hc2, hc3⟩

theorem getTagScan_outside (name strand : String) (pos : Int) (ig : Bool)
    (l : List RangeEntry) (rev : Bool)
    (h : ∀ x ∈ l, ¬(x.1 ≤ pos ∧ pos ≤ x.2.1)) :
    getTagScan name strand pos ig l rev
      = if rev then some (name ++ "-rev") else none := by
  induction l generalizing rev with
  | nil => rfl
  | cons hd tl ih =>
    obtain ⟨s, e, rs⟩ := hd
    unfold getTagScan
    rw [if_neg (h (s, e, rs) (List.mem_cons_self _ _))]
    exact ih rev (fun x hx => h x (List.mem_cons_of_mem _ hx))

theorem getTagScan_rev (name strand : String) (pos : Int) (ig : Bool)
    (l : List RangeEntry) (rev : Bool)
    (h1 : ∀ x ∈ l, x.1 ≤ pos → pos ≤ x.2.1 → (ig = false ∧ strand ≠ x.2.2))
    (h2 : rev = true ∨ ∃ x ∈ l, x.1 ≤ pos ∧ pos ≤ x.2.1) :
    getTagScan name strand pos ig l rev = some (name ++ "-rev") := by
  induction l generalizing rev with
  | nil =>
    rcases h2 with rfl | h2
    · rfl
    · simp at h2
  | cons hd tl ih =>
    obtain ⟨s, e, rs⟩ := hd
    unfold getTagScan
    by_cases hcont : s ≤ pos ∧ pos ≤ e
    · rw [if_pos hcont]
      obtain ⟨hig, hstr⟩ := h1 (s, e, rs) (List.mem_cons_self _ _) hcont.1 hcont.2
      rw [if_neg]
      · exact ih true (fun x hx => h1 x (List.mem_cons_of_mem _ hx)) (Or.inl rfl)
      · simp [hig, hstr]
    · rw [if_neg hcont]
      refine ih rev (fun x hx => h1 x (List.mem_cons_of_mem _ hx)) ?_
      rcases h2 with rfl | ⟨x, hx, hc⟩
      · exact Or.inl rfl
      · rcases List.mem_cons.mp hx with rfl | hmem
        · exact absurd hc hcont
        · exact Or.inr ⟨x, hmem, hc⟩

theorem getTagScan_shape (name strand : String) (pos : Int) (ig : Bool)
    (l : List RangeEntry) (rev : Bool) :
    getTagScan name strand pos ig l rev = none
    ∨ getTagScan name strand pos ig l rev = some name
    ∨ getTagScan name strand pos ig l rev = some (name ++ "-rev") := by
  induction l generalizing rev with
  | nil =>
    unfold getTagScan
    split
    · exact Or.inr (Or.inr rfl)
    · exact Or.inl rfl
  | cons hd tl ih =>
    obtain ⟨s, e, rs⟩ := hd
    unfold getTagScan
    split
    · split
      · exact Or.inr (Or.inl rfl)
      · exact ih true
    · exact ih rev

/-! Part 7: claims C2 and C3. -/

/-- C3: add_range inserts the interval into every bucket from
floor(start/100000) to floor(end/100000) inclusive (buckets of size
100000); consequently for every point pos the interval contains, the
interval is present in the single bucket floor(pos/100000); and get_tag
only ever inspects that single bucket (its answer depends on no other
bucket of the index). -/
theorem claim_C3_bucket_replication :
    (∀ (rm : RangeMatch) (chrom strand : String) (s e b : Int),
       Int.fdiv s 100000 ≤ b → b ≤ Int.fdiv e 100000 →
       (s, e, strand) ∈ (rm.add_range chrom strand s e).ranges chrom b)
    ∧ (∀ (rm : RangeMatch) (chrom strand : String) (s e pos : Int),
       s ≤ pos → pos ≤ e →
       (s, e, strand) ∈
         (rm.add_range chrom strand s e).ranges chrom (Int.fdiv pos 100000))
    ∧ (∀ (rm1 rm2 : RangeMatch) (chrom strand : String) (pos : Int) (ig : Bool),
       rm1.name = rm2.name →
       rm1.ranges chrom (Int.fdiv pos 100000) = rm2.ranges chrom (Int.fdiv pos 100000) →
       rm1.get_tag chrom strand pos ig = rm2.get_tag chrom strand pos ig) := by
  refine ⟨?_, ?_, ?_⟩
  · intro rm chrom strand s e b h1 h2
    exact add_range_mem rm chrom strand s e b h1 h2
  · intro rm chrom strand s e pos hp1 hp2
    exact add_range_mem rm chrom strand s e _ (fdiv_bucket_mono hp1) (fdiv_bucket_mono hp2)
  · intro rm1 rm2 chrom strand pos ig hn hr
    unfold RangeMatch.get_tag
    rw [hn, hr]

/-- Concrete instance of C3: the interval 50000 to 250000 lands in buckets
0, 1 and 2, in particular in the bucket of the point 150000. -/
theorem claim_C3_bucket_replication_witness :
    ((50000 : Int), (250000 : Int), "+") ∈
      ((RangeMatch.init "exon").add_range "chr1" "+" 50000 250000).ranges "chr1" 2
    ∧ ((50000 : Int), (250000 : Int), "+") ∈
      ((RangeMatch.init "exon").add_range "chr1" "+" 50000 250000).ranges "chr1"
        (Int.fdiv 150000 100000) :=
  ⟨claim_C3_bucket_replication.1 (RangeMatch.init "exon") "chr1" "+" 50000 250000 2
     (by decide) (by decide),
   claim_C3_bucket_replication.2.1 (RangeMatch.init "exon") "chr1" "+" 50000 250000 150000
     (by decide) (by decide)⟩

/-- C2: over an index of category C built by a sequence of add_range calls,
get_tag at a point p returns C when some inserted interval of the matching
chrom and strand contains p (start ≤ p ≤ end), returns None when p lies
outside every inserted interval of that chrom, and returns C-rev when no
strand-matching inserted interval contains p but at least one
strand-mismatching one does (with ignore_strand false). -/
theorem claim_C2_get_tag (C : String) (ops : List AddOp) (chrom strand : String)
    (p : Int) :
    ((∃ op ∈ ops, op.chrom = chrom ∧ op.strand = strand ∧ op.start ≤ p ∧ p ≤ op.stop) →
      (buildIndex C ops).get_tag chrom strand p false = some C)
    ∧ ((∀ op ∈ ops, op.chrom = chrom → ¬(op.start ≤ p ∧ p ≤ op.stop)) →
      (buildIndex C ops).get_tag chrom strand p false = none)
    ∧ ((∀ op ∈ ops, op.chrom = chrom → op.start ≤ p → p ≤ op.stop → op.strand ≠ strand) →
       (∃ op ∈ ops, op.chrom = chrom ∧ op.start ≤ p ∧ p ≤ op.stop) →
      (buildIndex C ops).get_tag chrom strand p false = some (C ++ "-rev")) := by
  have hname : (buildIndex C ops).name = C := buildIndex_name C ops
  have hsound : ∀ x ∈ (buildIndex C ops).ranges chrom (Int.fdiv p 100000),
      ∃ op ∈ ops, op.chrom = chrom ∧ x = (op.start, op.stop, op.strand) := by
    intro x hx
    rcases foldl_add_ranges_sound ops (RangeMatch.init C) chrom (Int.fdiv p 100000) x hx
      with h | h
    · simp [RangeMatch.init] at h
    · exact h
  refine ⟨?_, ?_, ?_⟩
  · rintro ⟨op, hop, hchrom, hstrand, hc1, hc2⟩
    unfold RangeMatch.get_tag
    rw [hname]
    apply getTagScan_matching
    refine ⟨(op.start, op.stop, op.strand), ?_, hc1, hc2, Or.inr hstrand.symm⟩
    have hmem := foldl_add_ranges_complete ops (RangeMatch.init C) op (Int.fdiv p 100000)
      (fdiv_bucket_mono hc1) (fdiv_bucket_mono hc2) hop
    rw [hchrom] at hmem
    exact hmem
  · intro hout
    unfold RangeMatch.get_tag
    have hres := getTagScan_outside (buildIndex C ops).name strand p false
      ((buildIndex C ops).ranges chrom (Int.fdiv p 100000)) false ?_
    · simpa using hres
    · intro x hx
      obtain ⟨op, hop, hchrom, rfl⟩ := hsound x hx
      exact fun hc => hout op hop hchrom ⟨hc.1, hc.2⟩
  · intro hmis hex
    unfold RangeMatch.get_tag
    rw [hname]
    apply getTagScan_rev
    · intro x hx hxc1 hxc2
      obtain ⟨op, hop, hchrom, rfl⟩ := hsound x hx
      exact ⟨rfl, fun hs => (hmis op hop hchrom hxc1 hxc2) hs.symm⟩
    · right
      obtain ⟨op, hop, hchrom, hc1, hc2⟩ := hex
      refine ⟨(op.start, op.stop, op.strand), ?_, hc1, hc2⟩
      have hmem := foldl_add_ranges_complete ops (RangeMatch.init C) op (Int.fdiv p 100000)
        (fdiv_bucket_mono hc1) (fdiv_bucket_mono hc2) hop
      rw [hchrom] at hmem
      exact hmem

/-- Concrete instance of C2: an exon index with a plus interval 100 to 200
and a minus interval 300 to 400 on chr1 answers exon at 150 on the plus
strand, None at 250, and exon-rev at 350 on the plus strand. -/
theorem claim_C2_get_tag_witness :
    (buildIndex "exon" [⟨"chr1", "+", 100, 200⟩, ⟨"chr1", "-", 300, 400⟩]).get_tag
        "chr1" "+" 150 false = some "exon"
    ∧ (buildIndex "exon" [⟨"chr1", "+", 100, 200⟩, ⟨"chr1", "-", 300, 400⟩]).get_tag
        "chr1" "+" 250 false = none
    ∧ (buildIndex "exon" [⟨"chr1", "+", 100, 200⟩, ⟨"chr1", "-", 300, 400⟩]).get_tag
        "chr1" "+" 350 false = some ("exon" ++ "-rev") :=
  ⟨(claim_C2_get_tag "exon" [⟨"chr1", "+", 100, 200⟩, ⟨"chr1", "-", 300, 400⟩]
      "chr1" "+" 150).1 (by decide),
   (claim_C2_get_tag "exon" [⟨"chr1", "+", 100, 200⟩, ⟨"chr1", "-", 300, 400⟩]
      "chr1" "+" 250).2.1 (by decide),
   (claim_C2_get_tag "exon" [⟨"chr1", "+", 100, 200⟩, ⟨"chr1", "-", 300, 400⟩]
      "chr1" "+" 350).2.2 (by decide) (by decide)⟩

/-! Part 8: lemmas about RegionTagger and claim C1. -/

theorem append_rev_ne_empty (s : String) : s ++ "-rev" ≠ "" := by
  intro h
  have h3 : s.length + "-rev".length = "".length := by
    rw [← String.length_append, h]
  rw [show "-rev".length = 4 from rfl, show "".length = 0 from rfl] at h3
  omega

theorem pyTruthy_of_ne {s : String} (h : s ≠ "") : pyTruthy (some s) = true := by
  simp [pyTruthy, h]

theorem get_tag_shape (rm : RangeMatch) (chrom strand : String) (pos : Int)
    (ig : Bool) :
    rm.get_tag chrom strand pos ig = none
    ∨ rm.get_tag chrom strand pos ig = some rm.name
    ∨ rm.get_tag chrom strand pos ig = some (rm.name ++ "-rev") :=
  getTagScan_shape rm.name strand pos ig (rm.ranges chrom (Int.fdiv pos 100000)) false

theorem regionScan_cons (r : RangeMatch) (rest : List RangeMatch)
    (chrom strand : String) (pos : Int) :
    regionScan (r :: rest) chrom strand pos
      = if pyTruthy (r.get_tag chrom strand pos false)
        then r.get_tag chrom strand pos false
        else regionScan rest chrom strand pos := rfl

theorem regionScan_eq_firstSome (regions : List RangeMatch) (chrom strand : String)
    (pos : Int) (hne : ∀ r ∈ regions, r.name ≠ "") :
    regionScan regions chrom strand pos
      = firstSome (regions.map (fun r => r.get_tag chrom strand pos false)) := by
  induction regions with
  | nil => rfl
  | cons r rest ih =>
    have hname : r.name ≠ "" := hne r (List.mem_cons_self _ _)
    have hrest : ∀ x ∈ rest, x.name ≠ "" := fun x hx => hne x (List.mem_cons_of_mem _ hx)
    rw [regionScan_cons, List.map_cons]
    rcases get_tag_shape r chrom strand pos false with h | h | h
    · rw [h]
      rw [show pyTruthy none = false from rfl, if_neg (by simp)]
      rw [ih hrest]
      rfl
    · rw [h, if_pos (pyTruthy_of_ne hname)]
      rfl
    · rw [h, if_pos (pyTruthy_of_ne (append_rev_ne_empty r.name))]
      rfl

theorem firstSome_mem (l : List (Option String)) (t : String)
    (h : firstSome l = some t) : some t ∈ l := by
  induction l with
  | nil => simp [firstSome] at h
  | cons hd tl ih =>
    match hd, h with
    | some a, h =>
      have ha : some a = some t := h
      rw [← ha]
      exact List.mem_cons_self _ _
    | none, h =>
      exact List.mem_cons_of_mem _ (ih h)

theorem firstSome_ne_empty (regions : List RangeMatch) (chrom strand : String)
    (pos : Int) (hne : ∀ r ∈ regions, r.name ≠ "") (t : String)
    (h : firstSome (regions.map (fun r => r.get_tag chrom strand pos false)) = some t) :
    t ≠ "" := by
  have hmem := firstSome_mem _ _ h
  rw [List.mem_map] at hmem
  obtain ⟨r, hr, hrt⟩ := hmem
  rcases get_tag_shape r chrom strand pos false with hg | hg | hg
  · rw [hg] at hrt
    exact absurd hrt (by simp)
  · rw [hg] at hrt
    have : r.name = t := Option.some.inj hrt
    rw [← this]
    exact hne r hr
  · rw [hg] at hrt
    have : r.name ++ "-rev" = t := Option.some.inj hrt
    rw [← this]
    exact append_rev_ne_empty r.name

theorem add_read_counts (regions : List RangeMatch) (counts : String → Int)
    (read : Read) (chrom : String)
    (hne : ∀ r ∈ regions, r.name ≠ "")
    (hm : read.is_unmapped = false) :
    RegionTagger.add_read ⟨regions, counts⟩ read chrom
      = ⟨regions, fun k => if k = specChosenCategory regions read chrom
                           then counts k + 1 else counts k⟩ := by
  simp only [RegionTagger.add_read, specChosenCategory, specStrand, hm,
    Bool.false_eq_true, if_false]
  by_cases hM : chrom = "chrM"
  · subst hM
    simp [pyTruthy]
  · have hMb : (chrom == "chrM") = false := beq_eq_false_iff_ne.mpr hM
    simp only [hMb, if_false, if_neg hM]
    by_cases hJ : read.cigar.any (fun oc => oc.1 == 3) = true
    · simp [hJ, pyTruthy]
    · simp only [hJ, Bool.false_eq_true, if_false]
      rw [regionScan_eq_firstSome regions chrom _ read.pos hne]
      cases hS : firstSome (regions.map
          (fun r => r.get_tag chrom (if read.is_reverse then "-" else "+") read.pos false)) with
      | none => simp [pyTruthy]
      | some t =>
        have ht : t ≠ "" := firstSome_ne_empty regions chrom _ read.pos hne t hS
        simp [pyTruthy, ht]

theorem add_read_unmapped (rt : RegionTagger) (read : Read) (chrom : String)
    (hu : read.is_unmapped = true) :
    rt.add_read read chrom = rt := by
  simp [RegionTagger.add_read, hu]

theorem sum_map_update (l : List String) (counts : String → Int) (t : String)
    (hnd : l.Nodup) (ht : t ∈ l) :
    (l.map (fun k => if k = t then counts k + 1 else counts k)).sum
      = (l.map counts).sum + 1 := by
  induction l with
  | nil => simp at ht
  | cons hd tl ih =>
    have hnd2 := List.nodup_cons.mp hnd
    rcases List.mem_cons.mp ht with heq | hmem
    · simp only [List.map_cons, List.sum_cons, if_pos heq.symm]
      have hcongr : ∀ k ∈ tl, (if k = t then counts k + 1 else counts k) = counts k := by
        intro k hk
        rw [if_neg]
        intro he
        exact hnd2.1 ((he.trans heq) ▸ hk)
      rw [List.map_congr_left hcongr]
      omega
    · have hne2 : hd ≠ t := fun he => hnd2.1 (by rw [he]; exact hmem)
      simp only [List.map_cons, List.sum_cons, if_neg hne2]
      rw [ih hnd2.2 hmem]
      omega

theorem name_mem_of_hnames (regions : List RangeMatch)
    (hnames : regions.map RangeMatch.name = ["exon", "intron", "promoter"])
    (r : RangeMatch) (hr : r ∈ regions) :
    r.name = "exon" ∨ r.name = "intron" ∨ r.name = "promoter" := by
  have hmem : r.name ∈ (["exon", "intron", "promoter"] : List String) := by
    rw [← hnames]
    exact List.mem_map_of_mem _ hr
  simpa using hmem

theorem hne_of_hnames (regions : List RangeMatch)
    (hnames : regions.map RangeMatch.name = ["exon", "intron", "promoter"]) :
    ∀ r ∈ regions, r.name ≠ "" := by
  intro r hr
  rcases name_mem_of_hnames regions hnames r hr with h | h | h <;> rw [h] <;> decide

theorem specChosen_mem (regions : List RangeMatch) (read : Read) (chrom : String)
    (hnames : regions.map RangeMatch.name = ["exon", "intron", "promoter"]) :
    specChosenCategory regions read chrom ∈ nineCategories := by
  unfold specChosenCategory
  by_cases hM : chrom = "chrM"
  · rw [if_pos hM]
    decide
  · rw [if_neg hM]
    by_cases hJ : read.cigar.any (fun oc => oc.1 == 3) = true
    · rw [if_pos hJ]
      decide
    · rw [if_neg hJ]
      cases hS : firstSome (regions.map
          (fun r => r.get_tag chrom (specStrand read) read.pos false)) with
      | none => decide
      | some t =>
        have hmem := firstSome_mem _ _ hS
        rw [List.mem_map] at hmem
        obtain ⟨r, hr, hrt⟩ := hmem
        have hshape : t = r.name ∨ t = r.name ++ "-rev" := by
          rcases get_tag_shape r chrom (specStrand read) read.pos false with hg | hg | hg
          · rw [hg] at hrt
            exact absurd hrt (by simp)
          · rw [hg] at hrt
            exact Or.inl (Option.some.inj hrt).symm
          · rw [hg] at hrt
            exact Or.inr (Option.some.inj hrt).symm
        rcases name_mem_of_hnames regions hnames r hr with hn | hn | hn <;>
          rcases hshape with hs | hs <;> rw [hs, hn] <;> decide

theorem processReads_sum (regions : List RangeMatch) (counts : String → Int)
    (hnames : regions.map RangeMatch.name = ["exon", "intron", "promoter"])
    (reads : List (Read × String)) :
    sumCounts (processReads ⟨regions, counts⟩ reads)
      = sumCounts ⟨regions, counts⟩
        + ((reads.filter (fun rc => !rc.1.is_unmapped)).length : Int) := by
  have hne := hne_of_hnames regions hnames
  induction reads generalizing counts with
  | nil => simp [processReads]
  | cons rc rest ih =>
    by_cases hu : rc.1.is_unmapped = true
    · have hstep : RegionTagger.add_read ⟨regions, counts⟩ rc.1 rc.2
          = ⟨regions, counts⟩ := add_read_unmapped _ _ _ hu
      have hfil : (rc :: rest).filter (fun rc => !rc.1.is_unmapped)
          = rest.filter (fun rc => !rc.1.is_unmapped) := by
        simp [List.filter_cons, hu]
      rw [hfil]
      simp only [processReads, List.foldl_cons, hstep]
      simp only [processReads] at ih
      rw [ih counts]
    · have hu2 : rc.1.is_unmapped = false := by
        revert hu
        cases rc.1.is_unmapped <;> simp
      have hstep := add_read_counts regions counts rc.1 rc.2 hne hu2
      have hfil : (rc :: rest).filter (fun rc => !rc.1.is_unmapped)
          = rc :: rest.filter (fun rc => !rc.1.is_unmapped) := by
        simp [List.filter_cons, hu2]
      rw [hfil, List.length_cons]
      simp only [processReads, List.foldl_cons, hstep]
      simp only [processReads] at ih
      rw [ih]
      have hsum : sumCounts ⟨regions, fun k =>
            if k = specChosenCategory regions rc.1 rc.2 then counts k + 1 else counts k⟩
          = sumCounts ⟨regions, counts⟩ + 1 := by
        unfold sumCounts
        exact sum_map_update nineCategories counts _ (by decide)
          (specChosen_mem regions rc.1 rc.2 hnames)
      rw [hsum]
      push_cast
      omega

/-- C1: with the three indices named exon, intron and promoter (as the
RegionTagger constructor builds them), add_read is a no-op on every
unmapped read; on every mapped read it increments exactly one category
counter, namely the one chosen by the fixed priority chrM gives
mitochondrial, otherwise a cigar operation of code 3 gives junction,
otherwise the first non-None strand-aware index query at the read start
position wins (including the rev variants), otherwise intergenic; and the
sum of the nine category counters after processing any read list from a
fresh tagger equals the number of mapped reads processed. -/
theorem claim_C1_region_tagging (regions : List RangeMatch) (counts0 : String → Int)
    (hnames : regions.map RangeMatch.name = ["exon", "intron", "promoter"]) :
    (∀ (read : Read) (chrom : String), read.is_unmapped = true →
       RegionTagger.add_read ⟨regions, counts0⟩ read chrom = ⟨regions, counts0⟩)
    ∧ (∀ (read : Read) (chrom : String), read.is_unmapped = false →
       RegionTagger.add_read ⟨regions, counts0⟩ read chrom
         = ⟨regions, fun k => if k = specChosenCategory regions read chrom
                              then counts0 k + 1 else counts0 k⟩)
    ∧ (∀ reads : List (Read × String),
       sumCounts (processReads ⟨regions, fun _ => 0⟩ reads)
         = ((reads.filter (fun rc => !rc.1.is_unmapped)).length : Int)) := by
  refine ⟨?_, ?_, ?_⟩
  · intro read chrom hu
    exact add_read_unmapped _ read chrom hu
  · intro read chrom hm
    exact add_read_counts regions counts0 read chrom (hne_of_hnames regions hnames) hm
  · intro reads
    rw [processReads_sum regions (fun _ => 0) hnames reads]
    simp [sumCounts, nineCategories]

/-- Concrete instance of C1: a tagger over small exon, intron and promoter
indices, fed one exonic read, one unmapped read, one junction read and one
chrM read, ends with category counters summing to 3, the number of mapped
reads. -/
theorem claim_C1_region_tagging_witness :
    sumCounts (processReads
      ⟨[buildIndex "exon" [⟨"chr1", "+", 100, 200⟩],
        buildIndex "intron" [⟨"chr1", "+", 200, 300⟩],
        buildIndex "promoter" []], fun _ => 0⟩
      [(⟨false, false, [(0, 10)], 150⟩, "chr1"),
       (⟨true, false, [], 0⟩, "chr1"),
       (⟨false, false, [(3, 5)], 0⟩, "chr2"),
       (⟨false, true, [(0, 20)], 250⟩, "chrM")]) = 3 := by
  rw [(claim_C1_region_tagging
    [buildIndex "exon" [⟨"chr1", "+", 100, 200⟩],
     buildIndex "intron" [⟨"chr1", "+", 200, 300⟩],
     buildIndex "promoter" []] (fun _ => 0) (by rfl)).2.2
    [(⟨false, false, [(0, 10)], 150⟩, "chr1"),
     (⟨true, false, [], 0⟩, "chr1"),
     (⟨false, false, [(3, 5)], 0⟩, "chr2"),
     (⟨false, true, [(0, 20)], 250⟩, "chrM")]]
  rfl

/-! Part 9: lemmas about FeatureBin and claims C7, C8, C9. -/

theorem addVal_max_step (fb : FeatureBin) (val : TagValue) :
    (fb.addVal val).max?
      = if (optFalsy fb.max? || (match fb.max? with
                                 | some m => TagValue.pyLt m val
                                 | none => false)) = true
        then some val else fb.max? := by
  unfold FeatureBin.addVal
  simp only [apply_ite FeatureBin.max?, ite_self]

theorem addVal_max_nonneg (fb : FeatureBin) (m v : Int)
    (hm : fb.max? = some (TagValue.int m)) (hmn : 0 ≤ m) (hv : 0 ≤ v) :
    (fb.addVal (TagValue.int v)).max? = some (TagValue.int (max m v)) := by
  rw [addVal_max_step, hm]
  by_cases hc : m = 0
  · subst hc
    have hcond : (optFalsy (some (TagValue.int 0))
        || TagValue.pyLt (TagValue.int 0) (TagValue.int v)) = true := by
      simp [optFalsy, TagValue.falsy]
    rw [if_pos hcond, max_eq_right hv]
  · by_cases hlt : m < v
    · have hcond : (optFalsy (some (TagValue.int m))
          || TagValue.pyLt (TagValue.int m) (TagValue.int v)) = true := by
        simp [TagValue.pyLt, hlt]
      rw [if_pos hcond, max_eq_right (le_of_lt hlt)]
    · have hcond : (optFalsy (some (TagValue.int m))
          || TagValue.pyLt (TagValue.int m) (TagValue.int v)) = false := by
        simp [optFalsy, TagValue.falsy, TagValue.pyLt, hc, hlt]
      rw [hcond, if_neg (by simp), max_eq_left (not_lt.mp hlt)]

theorem addIntVals_max_nonneg (vals : List Int) (fb : FeatureBin) (m : Int)
    (hm : fb.max? = some (TagValue.int m)) (hmn : 0 ≤ m)
    (hv : ∀ x ∈ vals, 0 ≤ x) :
    (addIntVals fb vals).max? = some (TagValue.int (vals.foldl max m)) := by
  induction vals generalizing fb m with
  | nil => simpa [addIntVals] using hm
  | cons v rest ih =>
    have hstep : (fb.addVal (TagValue.int v)).max? = some (TagValue.int (max m v)) :=
      addVal_max_nonneg fb m v hm hmn (hv v (List.mem_cons_self _ _))
    show (addIntVals (fb.addVal (TagValue.int v)) rest).max? = _
    rw [ih _ (max m v) hstep (le_trans hmn (le_max_left m v))
      (fun x hx => hv x (List.mem_cons_of_mem _ hx))]
    rfl

/-- C7 fails as stated: adding the values 0 and then -5 to a fresh
FeatureBin leaves the max property at -5, although the largest value added
is 0.  The update guard (if not self._max or self._max < val) treats a
stored running maximum of 0 as absent, so the -5 overwrites it. -/
theorem claim_C7_counterexample :
    (addIntVals (FeatureBin.init "AS") [0, -5]).max? = some (TagValue.int (-5))
    ∧ listMax 0 [-5] = 0 := by
  constructor
  · rfl
  · rfl

/-- C7 amended: for every non-empty sequence of values added to a
FeatureBin, the max property returns the largest value added, regardless of
order, PROVIDED all added values are nonnegative (a negative value added
while the running maximum is 0 overwrites it, as the counterexample
shows). -/
theorem claim_C7_max (tag : String) (v : Int) (vs : List Int)
    (h : 0 ≤ v ∧ ∀ x ∈ vs, 0 ≤ x) :
    (addIntVals (FeatureBin.init tag) (v :: vs)).max?
      = some (TagValue.int (listMax v vs)) := by
  have hinit : (FeatureBin.init tag).max? = none := rfl
  have h0 : ((FeatureBin.init tag).addVal (TagValue.int v)).max?
      = some (TagValue.int v) := by
    rw [addVal_max_step, hinit]
    rfl
  show (addIntVals ((FeatureBin.init tag).addVal (TagValue.int v)) vs).max? = _
  rw [addIntVals_max_nonneg vs _ v h0 h.1 h.2]
  rfl

/-- Concrete instance of the amended C7: adding 1, 3, 2 gives max 3. -/
theorem claim_C7_max_witness :
    (addIntVals (FeatureBin.init "AS") [1, 3, 2]).max? = some (TagValue.int 3) := by
  rw [claim_C7_max "AS" 1 [3, 2] (by decide)]
  rfl

/-- Whether a stored tag value is a string (the non-numeric case of the
mean computation). -/
def TagValue.isStr : TagValue → Bool
  | .str _ => true
  | .int _ => false

/-- The specification quantity Σ(value × count) over the numeric entries of
a frequency map. -/
def binsAcc : List (TagValue × Int) → Int
  | [] => 0
  | (TagValue.int n, c) :: rest => n * c + binsAcc rest
  | (TagValue.str _, _) :: rest => binsAcc rest

/-- The specification quantity Σ(count) over the entries of a frequency
map. -/
def binsCount (bins : List (TagValue × Int)) : Int :=
  (bins.map Prod.snd).sum

theorem meanScan_str (bins : List (TagValue × Int)) (acc count : Int)
    (h : ∃ kv ∈ bins, kv.1.isStr = true) :
    meanScan bins acc count = none := by
  induction bins generalizing acc count with
  | nil => simp at h
  | cons kv rest ih =>
    obtain ⟨v, _c⟩ := kv
    cases v with
    | str s => rfl
    | int n =>
      obtain ⟨x, hx, hxs⟩ := h
      rcases List.mem_cons.mp hx with heq | hmem
      · rw [heq] at hxs
        exact absurd hxs (by simp [TagValue.isStr])
      · exact ih _ _ ⟨x, hmem, hxs⟩

theorem meanScan_int (bins : List (TagValue × Int)) (acc count : Int)
    (h : ∀ kv ∈ bins, kv.1.isStr = false) :
    meanScan bins acc count = some (acc + binsAcc bins, count + binsCount bins) := by
  induction bins generalizing acc count with
  | nil => simp [meanScan, binsAcc, binsCount]
  | cons kv rest ih =>
    obtain ⟨v, c⟩ := kv
    cases v with
    | str s =>
      have := h (TagValue.str s, c) (List.mem_cons_self _ _)
      exact absurd this (by simp [TagValue.isStr])
    | int n =>
      show meanScan rest (acc + n * c) (count + c) = _
      rw [ih _ _ (fun kv hkv => h kv (List.mem_cons_of_mem _ hkv))]
      have hAcc : binsAcc ((TagValue.int n, c) :: rest) = n * c + binsAcc rest := rfl
      have hCnt : binsCount ((TagValue.int n, c) :: rest) = c + binsCount rest := by
        simp [binsCount]
      rw [hAcc, hCnt, ← add_assoc, ← add_assoc]

theorem binsCount_pos (bins : List (TagValue × Int)) (hne : bins ≠ [])
    (hpos : ∀ kv ∈ bins, 0 < kv.2) : 0 < binsCount bins := by
  match bins, hne with
  | kv :: rest, _ =>
    have h1 : 0 < kv.2 := hpos kv (List.mem_cons_self _ _)
    have h2 : 0 ≤ binsCount rest := by
      apply List.sum_nonneg
      intro x hx
      rw [List.mem_map] at hx
      obtain ⟨kv2, hkv2, rfl⟩ := hx
      exact le_of_lt (hpos kv2 (List.mem_cons_of_mem _ hkv2))
    have h3 : binsCount (kv :: rest) = kv.2 + binsCount rest := by
      simp [binsCount]
    omega

/-- C8: if any value stored in the frequency map is non-numeric, the mean
property returns 0 instead of failing (the try/except around the
accumulation catches the type error); if all stored values are numeric and
the map is non-empty (every stored count is positive, as add guarantees),
mean returns the exact quotient sum of value times count over sum of
count. -/
theorem claim_C8_mean (fb : FeatureBin) :
    ((∃ kv ∈ fb.bins, kv.1.isStr = true) → fb.mean = Except.ok 0)
    ∧ ((∀ kv ∈ fb.bins, kv.1.isStr = false) → fb.bins ≠ [] →
       (∀ kv ∈ fb.bins, 0 < kv.2) →
       fb.mean = Except.ok ((binsAcc fb.bins : Rat) / (binsCount fb.bins : Rat))) := by
  constructor
  · intro h
    unfold FeatureBin.mean
    rw [meanScan_str fb.bins 0 0 h]
  · intro hall hne hpos
    unfold FeatureBin.mean
    rw [meanScan_int fb.bins 0 0 hall]
    have hcount : 0 < binsCount fb.bins := binsCount_pos fb.bins hne hpos
    simp only [zero_add]
    rw [if_neg (by omega)]

/-- Concrete instance of C8: a map holding a string value yields mean 0; a
map holding 1 twice and 4 once yields mean (1*2+4*1)/(2+1) = 2. -/
theorem claim_C8_mean_witness :
    FeatureBin.mean ⟨"AS", true, [(TagValue.int 1, 2), (TagValue.str "x", 1)],
        [], none, none⟩ = Except.ok 0
    ∧ FeatureBin.mean ⟨"AS", true, [(TagValue.int 1, 2), (TagValue.int 4, 1)],
        [], none, none⟩ = Except.ok 2 := by
  constructor
  · exact (claim_C8_mean _).1 (by decide)
  · rw [(claim_C8_mean ⟨"AS", true, [(TagValue.int 1, 2), (TagValue.int 4, 1)],
        [], none, none⟩).2 (by decide) (by decide) (by decide)]
    norm_num [binsAcc, binsCount]

/-- C9: on a FeatureBin to which no value has ever been added, the mean
property hits the unguarded final division float(acc)/count with count = 0
and raises ZeroDivisionError (modelled as the error case) instead of
returning 0: the try/except only protects the per-entry accumulation
inside the loop. -/
theorem claim_C9_empty_mean (tag : String) :
    (FeatureBin.init tag).mean = Except.error () := rfl

/-! Part 10: lemmas about the clipping normalizer and claims C4, C5, C10. -/

theorem clipStep_retained (st : ClipState) (op : Nat × Nat)
    (h4 : op.1 ≠ 4) (h5 : op.1 ≠ 5) :
    clipStep st op
      = { st with inseq := true, newcigar := st.newcigar ++ [(op.1, op.2)] } := by
  unfold clipStep
  rw [if_neg (by simp [h5]), if_neg (by simp [h4])]

theorem clipScan_retained (mid : List (Nat × Nat)) (st : ClipState)
    (h : ∀ op ∈ mid, op.1 ≠ 4 ∧ op.1 ≠ 5) :
    mid.foldl clipStep st
      = { st with newcigar := st.newcigar ++ mid,
                  inseq := st.inseq || !mid.isEmpty } := by
  induction mid generalizing st with
  | nil => simp
  | cons op rest ih =>
    have hop := h op (List.mem_cons_self _ _)
    simp only [List.foldl_cons]
    rw [clipStep_retained st op hop.1 hop.2]
    rw [ih _ (fun x hx => h x (List.mem_cons_of_mem _ hx))]
    simp [List.append_assoc]

theorem clipScan_c4 (mid : List (Nat × Nat)) (hne : mid ≠ [])
    (h : ∀ op ∈ mid, op.1 ≠ 4 ∧ op.1 ≠ 5) :
    ((4, 5) :: mid ++ [(4, 3)]).foldl clipStep clipInit
      = { newcigar := mid, clip_5 := 5, clip_3 := 3, changed := true, inseq := true } := by
  have hie : mid.isEmpty = false := by
    cases mid
    · exact absurd rfl hne
    · rfl
  simp only [List.foldl_cons, List.foldl_append]
  rw [show clipStep clipInit (4, 5) = { clipInit with changed := true, clip_5 := 5 } from rfl,
    clipScan_retained mid _ h]
  simp [clipInit, hie, clipStep]

theorem clipScan_front (c5 : Nat) (mid2 : List (Nat × Nat)) (hne : mid2 ≠ [])
    (h : ∀ op ∈ mid2, op.1 ≠ 4 ∧ op.1 ≠ 5) :
    ((4, c5) :: mid2).foldl clipStep clipInit
      = { newcigar := mid2, clip_5 := c5, clip_3 := 0, changed := true, inseq := true } := by
  have hie : mid2.isEmpty = false := by
    cases mid2
    · exact absurd rfl hne
    · rfl
  simp only [List.foldl_cons]
  rw [show clipStep clipInit (4, c5) = { clipInit with changed := true, clip_5 := c5 } from rfl,
    clipScan_retained mid2 _ h]
  simp [clipInit, hie]

theorem clipScan_double (a b : Nat) (mid : List (Nat × Nat)) (hne : mid ≠ [])
    (h : ∀ op ∈ mid, op.1 ≠ 4 ∧ op.1 ≠ 5) :
    ((4, a) :: (4, b) :: mid).foldl clipStep clipInit
      = { newcigar := mid, clip_5 := b, clip_3 := 0, changed := true, inseq := true } := by
  have hie : mid.isEmpty = false := by
    cases mid
    · exact absurd rfl hne
    · rfl
  simp only [List.foldl_cons]
  rw [show clipStep clipInit (4, a) = { clipInit with changed := true, clip_5 := a } from rfl,
    show clipStep { clipInit with changed := true, clip_5 := a } (4, b)
      = { clipInit with changed := true, clip_5 := b } from rfl,
    clipScan_retained mid _ h]
  simp [clipInit, hie]

theorem bam_rc_eval (read : RcRead) (hm : read.is_unmapped = false)
    (nc : List (Nat × Nat)) (c5 c3 : Nat) (insq : Bool)
    (hscan : read.cigar.foldl clipStep clipInit
      = { newcigar := nc, clip_5 := c5, clip_3 := c3, changed := true, inseq := insq }) :
    bam_removeclipping_read read
      = ({ read with
           cigar := nc
           seq := if c3 ≠ 0 then pySliceDropBoth read.seq c5 c3 else read.seq.drop c5
           qual := if c3 ≠ 0 then pySliceDropBoth read.qual c5 c3 else read.qual.drop c5
           tags := (read.tags
             ++ (if c5 ≠ 0 then [("ZA", RcTagVal.i c5)] else [])
             ++ (if c3 ≠ 0 then [("ZB", RcTagVal.i c3)] else [])
             ++ [("ZC", RcTagVal.f (((c5 + c3 : Nat) : Rat) / (read.seq.length : Rat)))]) },
         true) := by
  unfold bam_removeclipping_read
  rw [if_neg (by simp [hm])]
  rw [hscan]
  rfl

/-- C4: for a mapped record whose cigar is a 5-prime soft clip of length 5,
then retained operations, then a 3-prime soft clip of length 3, over a
sequence (and quality string) of length L, the normalizer outputs sequence
and quality of length L-5-3 with the first 5 and last 3 characters removed,
cigar reduced to the retained operations, and tags ZA=5, ZB=3, ZC=8/L
appended; and in general, when the recorded 3-prime clip is zero only the
front of the sequence is truncated, the tail staying intact. -/
theorem claim_C4_clip_roundtrip (read : RcRead) (mid : List (Nat × Nat)) (L : Nat)
    (hm : read.is_unmapped = false)
    (hcig : read.cigar = (4, 5) :: mid ++ [(4, 3)])
    (hmid : mid ≠ [] ∧ ∀ op ∈ mid, op.1 ≠ 4 ∧ op.1 ≠ 5)
    (hL : read.seq.length = L) (hq : read.qual.length = L) (h8 : 8 ≤ L) :
    ((bam_removeclipping_read read).1.seq.length = L - 5 - 3
      ∧ (bam_removeclipping_read read).1.qual.length = L - 5 - 3
      ∧ (bam_removeclipping_read read).1.seq = (read.seq.take (L - 3)).drop 5
      ∧ (bam_removeclipping_read read).1.qual = (read.qual.take (L - 3)).drop 5
      ∧ (bam_removeclipping_read read).1.cigar = mid
      ∧ (bam_removeclipping_read read).1.tags
          = read.tags ++ [("ZA", RcTagVal.i 5), ("ZB", RcTagVal.i 3),
                          ("ZC", RcTagVal.f ((8 : Rat) / (L : Rat)))])
    ∧ (∀ (r : RcRead) (c5 : Nat) (mid2 : List (Nat × Nat)),
        r.is_unmapped = false → r.cigar = (4, c5) :: mid2 → mid2 ≠ [] →
        (∀ op ∈ mid2, op.1 ≠ 4 ∧ op.1 ≠ 5) →
        (bam_removeclipping_read r).1.seq = r.seq.drop c5
          ∧ (bam_removeclipping_read r).1.qual = r.qual.drop c5) := by
  constructor
  · have heval := bam_rc_eval read hm mid 5 3 true
      (by rw [hcig]; exact clipScan_c4 mid hmid.1 hmid.2)
    rw [heval]
    have h3 : ((3 : Nat) ≠ 0) := by decide
    have h5 : ((5 : Nat) ≠ 0) := by decide
    refine ⟨?_, ?_, ?_, ?_, ?_, ?_⟩
    · simp only [if_pos h3]
      unfold pySliceDropBoth
      rw [List.length_drop, List.length_take, hL]
      omega
    · simp only [if_pos h3]
      unfold pySliceDropBoth
      rw [List.length_drop, List.length_take, hq]
      omega
    · simp only [if_pos h3]
      unfold pySliceDropBoth
      rw [hL]
    · simp only [if_pos h3]
      unfold pySliceDropBoth
      rw [hq]
    · rfl
    · simp only [if_pos h3, if_pos h5, hL]
      norm_num
  · intro r c5 mid2 hm2 hc2 hne2 hr2
    have heval := bam_rc_eval r hm2 mid2 c5 0 true
      (by rw [hc2]; exact clipScan_front c5 mid2 hne2 hr2)
    rw [heval]
    constructor <;> simp

/-- Concrete instance of C4: a 12-base read with cigar 5S 4M 3S keeps the
middle 4 bases and gets ZA=5, ZB=3, ZC=8/12. -/
theorem claim_C4_clip_roundtrip_witness :
    (bam_removeclipping_read
      ⟨false, [(4, 5), (0, 4), (4, 3)],
       ['A', 'A', 'A', 'A', 'A', 'C', 'G', 'T', 'T', 'G', 'G', 'G'],
       ['I', 'I', 'I', 'I', 'I', 'J', 'J', 'J', 'J', 'K', 'K', 'K'],
       []⟩).1.seq.length = 4 := by
  have h := (claim_C4_clip_roundtrip
    ⟨false, [(4, 5), (0, 4), (4, 3)],
     ['A', 'A', 'A', 'A', 'A', 'C', 'G', 'T', 'T', 'G', 'G', 'G'],
     ['I', 'I', 'I', 'I', 'I', 'J', 'J', 'J', 'J', 'K', 'K', 'K'],
     []⟩ [(0, 4)] 12 rfl rfl ⟨by decide, by decide⟩ rfl rfl (by decide)).1.1
  rw [h]

/-- C5: the normalizer is the identity on every mapped record whose cigar
holds no soft-clip (4) and no hard-clip (5) operation: the record is
unchanged and the altered counter is not incremented, so a second pass over
an already-normalized record changes nothing. -/
theorem claim_C5_idempotent (read : RcRead) (hm : read.is_unmapped = false)
    (hnoclip : ∀ op ∈ read.cigar, op.1 ≠ 4 ∧ op.1 ≠ 5) :
    bam_removeclipping_read read = (read, false) := by
  unfold bam_removeclipping_read
  rw [if_neg (by simp [hm])]
  rw [clipScan_retained read.cigar clipInit hnoclip]
  rfl

/-- Concrete instance of C5: a mapped record with cigar 5M 1D 5M passes
through untouched. -/
theorem claim_C5_idempotent_witness :
    bam_removeclipping_read
      ⟨false, [(0, 5), (2, 1), (0, 5)], ['A', 'C', 'G', 'T'], ['I', 'I', 'I', 'I'], []⟩
      = (⟨false, [(0, 5), (2, 1), (0, 5)], ['A', 'C', 'G', 'T'], ['I', 'I', 'I', 'I'], []⟩,
         false) :=
  claim_C5_idempotent _ rfl (by decide)

/-- C10: the recorded clip lengths are assigned, not accumulated: on a
mapped record whose cigar starts with two soft clips of lengths a then b
before the retained operations, the scan records clip_5 = b (the last one),
the sequence loses only b bases from the front (fewer than the a+b
soft-clipped bases when a is positive), and the appended tags are ZA=b and
ZC=b/L with no ZB. -/
theorem claim_C10_last_clip_wins (read : RcRead) (a b : Nat)
    (mid : List (Nat × Nat))
    (hm : read.is_unmapped = false)
    (hcig : read.cigar = (4, a) :: (4, b) :: mid)
    (hmid : mid ≠ [] ∧ ∀ op ∈ mid, op.1 ≠ 4 ∧ op.1 ≠ 5)
    (ha : 0 < a) (hb : 0 < b) :
    (bam_removeclipping_read read).1.seq = read.seq.drop b
    ∧ (bam_removeclipping_read read).1.tags
        = read.tags ++ [("ZA", RcTagVal.i b),
                        ("ZC", RcTagVal.f ((b : Rat) / (read.seq.length : Rat)))]
    ∧ b < a + b := by
  have heval := bam_rc_eval read hm mid b 0 true
    (by rw [hcig]; exact clipScan_double a b mid hmid.1 hmid.2)
  rw [heval]
  refine ⟨?_, ?_, ?_⟩
  · simp
  · have hbne : b ≠ 0 := by omega
    simp [hbne]
  · omega

/-- Concrete instance of C10: cigar 2S 3S 4M on a 9-base read drops only 3
bases and records ZA=3. -/
theorem claim_C10_last_clip_wins_witness :
    (bam_removeclipping_read
      ⟨false, [(4, 2), (4, 3), (0, 4)],
       ['A', 'A', 'C', 'C', 'C', 'G', 'G', 'G', 'G'],
       ['I', 'I', 'I', 'I', 'I', 'I', 'I', 'I', 'I'],
       []⟩).1.seq = ['C', 'C', 'G', 'G', 'G', 'G'] := by
  have h := (claim_C10_last_clip_wins
    ⟨false, [(4, 2), (4, 3), (0, 4)],
     ['A', 'A', 'C', 'C', 'C', 'G', 'G', 'G', 'G'],
     ['I', 'I', 'I', 'I', 'I', 'I', 'I', 'I', 'I'],
     []⟩ 2 3 [(0, 4)] rfl rfl ⟨by decide, by decide⟩ (by decide) (by decide)).1
  rw [h]
  rfl

/-! Part 11: claim C6, the flag distribution. -/

/-- C6 fails as stated: with raw flag values 0x1, 0x1 or 0x4 = 0x5, and
0x10 (three distinct read names), the flag-distribution report holds NO row
for bit 0x4.  A bit of flag_descriptions gets a row only when that exact
value occurs as an observed raw flag value (line 362 tests membership of
the bit in flag_counts, whose keys here are 1, 5 and 16); 0x4 occurs only
OR-ed into 0x5, so its row is absent even though its OR-mask count would
be 1. -/
theorem claim_C6_counterexample :
    (runEngine [⟨"r1", 1⟩, ⟨"r2", 5⟩, ⟨"r3", 16⟩]).total = 3
    ∧ reportRows (runEngine [⟨"r1", 1⟩, ⟨"r2", 5⟩, ⟨"r3", 16⟩]).flag_counts = [1, 16]
    ∧ 4 ∉ reportRows (runEngine [⟨"r1", 1⟩, ⟨"r2", 5⟩, ⟨"r3", 16⟩]).flag_counts
    ∧ flagBitCount (runEngine [⟨"r1", 1⟩, ⟨"r2", 5⟩, ⟨"r3", 16⟩]).flag_counts 4 = 1 := by
  decide

/-- C6 amended: for a record stream with three distinct read identifiers
and raw flags 0x1, 0x1 or 0x4, and 0x10, total is 3 and the OR-mask counts
are 2 for bit 0x1, 1 for bit 0x4 and 1 for bit 0x10 (each bit's count being
the sum of the frequencies of every observed flag value having that bit
set); the report shows rows only for 0x1 (count 2, displayed 66.7 percent)
and 0x10 (count 1, displayed 33.3 percent), and no row for 0x4, since a bit
is listed only when it occurs as an exact observed flag value. -/
theorem claim_C6_flag_distribution (q1 q2 q3 : String)
    (h12 : q1 ≠ q2) (h13 : q1 ≠ q3) (h23 : q2 ≠ q3) :
    (runEngine [⟨q1, 1⟩, ⟨q2, 5⟩, ⟨q3, 16⟩]).total = 3
    ∧ (runEngine [⟨q1, 1⟩, ⟨q2, 5⟩, ⟨q3, 16⟩]).flag_counts = [(1, 1), (5, 1), (16, 1)]
    ∧ flagBitCount (runEngine [⟨q1, 1⟩, ⟨q2, 5⟩, ⟨q3, 16⟩]).flag_counts 1 = 2
    ∧ flagBitCount (runEngine [⟨q1, 1⟩, ⟨q2, 5⟩, ⟨q3, 16⟩]).flag_counts 4 = 1
    ∧ flagBitCount (runEngine [⟨q1, 1⟩, ⟨q2, 5⟩, ⟨q3, 16⟩]).flag_counts 16 = 1
    ∧ reportRows (runEngine [⟨q1, 1⟩, ⟨q2, 5⟩, ⟨q3, 16⟩]).flag_counts = [1, 16]
    ∧ oneDecimalRound (pctOf 2 3) = 667 / 10
    ∧ oneDecimalRound (pctOf 1 3) = 333 / 10 := by
  have hstep2 : engineStep ⟨[q1], [(1, 1)], 1, 1, 0⟩ ⟨q2, 5⟩
      = ⟨[q1, q2], [(1, 1), (5, 1)], 2, 1, 1⟩ := by
    unfold engineStep
    rw [if_neg (by simp only [List.mem_singleton]; exact fun h => h12 h.symm)]
    norm_num [StatRec.is_unmapped, flagIncr, flagHasKey]
    decide
  have hstep3 : engineStep ⟨[q1, q2], [(1, 1), (5, 1)], 2, 1, 1⟩ ⟨q3, 16⟩
      = ⟨[q1, q2, q3], [(1, 1), (5, 1), (16, 1)], 3, 2, 1⟩ := by
    unfold engineStep
    have hmem : q3 ∉ ([q1, q2] : List String) := by
      intro h
      rcases List.mem_cons.mp h with h | h
      · exact h13 h.symm
      · rw [List.mem_singleton] at h
        exact h23 h.symm
    rw [if_neg hmem]
    norm_num [StatRec.is_unmapped, flagIncr, flagHasKey]
    decide
  have hstep1 : engineStep engineInit ⟨q1, 1⟩ = ⟨[q1], [(1, 1)], 1, 1, 0⟩ := by
    unfold engineStep engineInit
    rw [if_neg (by simp)]
    norm_num [StatRec.is_unmapped, flagIncr, flagHasKey]
  have hstate : runEngine [⟨q1, 1⟩, ⟨q2, 5⟩, ⟨q3, 16⟩]
      = ⟨[q1, q2, q3], [(1, 1), (5, 1), (16, 1)], 3, 2, 1⟩ := by
    unfold runEngine
    simp only [List.foldl_cons, List.foldl_nil]
    rw [hstep1, hstep2, hstep3]
  rw [hstate]
  refine ⟨rfl, rfl, ?_, ?_, ?_, ?_, ?_, ?_⟩
  · exact (show flagBitCount [(1, 1), (5, 1), (16, 1)] 1 = 2 by decide)
  · exact (show flagBitCount [(1, 1), (5, 1), (16, 1)] 4 = 1 by decide)
  · exact (show flagBitCount [(1, 1), (5, 1), (16, 1)] 16 = 1 by decide)
  · exact (show reportRows [(1, 1), (5, 1), (16, 1)] = [1, 16] by decide)
  · norm_num [oneDecimalRound, pctOf]
  · norm_num [oneDecimalRound, pctOf]

/-- Concrete instance of the amended C6, with read names r1, r2, r3. -/
theorem claim_C6_flag_distribution_witness :
    (runEngine [⟨"r1", 1⟩, ⟨"r2", 5⟩, ⟨"r3", 16⟩]).total = 3
    ∧ (runEngine [⟨"r1", 1⟩, ⟨"r2", 5⟩, ⟨"r3", 16⟩]).flag_counts
        = [(1, 1), (5, 1), (16, 1)]
    ∧ flagBitCount (runEngine [⟨"r1", 1⟩, ⟨"r2", 5⟩, ⟨"r3", 16⟩]).flag_counts 1 = 2
    ∧ flagBitCount (runEngine [⟨"r1", 1⟩, ⟨"r2", 5⟩, ⟨"r3", 16⟩]).flag_counts 4 = 1
    ∧ flagBitCount (runEngine [⟨"r1", 1⟩, ⟨"r2", 5⟩, ⟨"r3", 16⟩]).flag_counts 16 = 1
    ∧ reportRows (runEngine [⟨"r1", 1⟩, ⟨"r2", 5⟩, ⟨"r3", 16⟩]).flag_counts = [1, 16]
    ∧ oneDecimalRound (pctOf 2 3) = 667 / 10
    ∧ oneDecimalRound (pctOf 1 3) = 333 / 10 :=
  claim_C6_flag_distribution "r1" "r2" "r3" (by decide) (by decide) (by decide)
